import Mathlib

/-!
Verification development for the green-hosting inspector's core:
the domain extraction pipeline (`extractUrlsWithRanges`, `extractDomainsFromText`)
and the classification cache / batch inspector (`batchInspectGreenHosting`,
`checkSingleDomain`), shallowly embedded from the TypeScript source.

Strings are modelled as `String` / `List Char`; timestamps as `Int`
(JS number arithmetic on integral millisecond clocks); the external
classification endpoint as an oracle `GreenApi`; a thrown JS exception as
`Except.error` carrying the exception message.
-/

namespace GreenHosting

/-- `DomainCheckResult` from domainUtils.ts: `{green: boolean | null, hostedBy?, error?}`. -/
structure DomainCheckResult where
  green : Option Bool
  hostedBy : Option String := none
  error : Option String := none
  deriving DecidableEq, Repr

/-- `CacheEntry` from extension.ts: a `DomainCheckResult` plus its creation timestamp. -/
structure CacheEntry where
  green : Option Bool
  hostedBy : Option String := none
  error : Option String := none
  timestamp : Int
  deriving DecidableEq, Repr

/-- The JSON payload of a successful greencheck response: boolean `green`,
optional `hosted_by` provider name. -/
structure ApiPayload where
  green : Bool
  hosted_by : Option String := none
  deriving DecidableEq, Repr

/-- A fetch `Response` as the client consumes it: `status`, `ok`, and the
body which `.json()` either parses (`Except.ok`) or fails on (`Except.error`). -/
structure ApiResponse where
  status : Nat
  ok : Bool
  body : Except String ApiPayload
  deriving Repr

/-- The external endpoint: for a domain, either a transport-level exception
(`Except.error` = `fetch` throwing) or a response. -/
def GreenApi : Type := String → Except String ApiResponse

/-- `CACHE_EXPIRY = 24 * 60 * 60 * 1000 * 7` (one week in milliseconds). -/
def CACHE_EXPIRY : Int := 24 * 60 * 60 * 1000 * 7

/-! ### JS `Map` as an insertion-ordered association list -/

/-- `Map.get` / `Map.has`: first entry with the key. -/
def mapGet? {α : Type} : List (String × α) → String → Option α
  | [], _ => none
  | (k', v) :: rest, k => if k' = k then some v else mapGet? rest k

/-- `Map.set`: update in place when the key is present, else append. -/
def mapSet {α : Type} : List (String × α) → String → α → List (String × α)
  | [], k, v => [(k, v)]
  | (k', v') :: rest, k, v =>
    if k' = k then (k, v) :: rest else (k', v') :: mapSet rest k v

/-- `Map.delete`: drop the entry with the key. -/
def mapDelete {α : Type} : List (String × α) → String → List (String × α)
  | [], _ => []
  | (k', v') :: rest, k => if k' = k then rest else (k', v') :: mapDelete rest k

/-- The keys of a map, in order. -/
def mapKeys {α : Type} (m : List (String × α)) : List String := m.map Prod.fst

/-! ### Classification service client (`checkSingleDomain`) -/

/-- `checkSingleDomain` from extension.ts: fetch the greencheck endpoint;
non-ok responses throw (`'Rate limited - too many requests'` for HTTP 429,
`` `API error (HTTP ${status})` `` otherwise); an ok response is parsed into
`{green: data.green, hostedBy: data.hosted_by}`. -/
def checkSingleDomain (net : GreenApi) (domain : String) : Except String DomainCheckResult :=
  match net domain with
  | .error e => .error e
  | .ok response =>
    if !response.ok then
      if response.status == 429 then .error "Rate limited - too many requests"
      else .error ("API error (HTTP " ++ toString response.status ++ ")")
    else
      match response.body with
      | .error e => .error e
      | .ok data => .ok { green := some data.green, hostedBy := data.hosted_by }

/-- The per-domain body of the `Promise.all` in `batchInspectGreenHosting`:
a thrown exception becomes `{green: null, error: message}`. -/
def checkResult (net : GreenApi) (domain : String) : DomainCheckResult :=
  match checkSingleDomain net domain with
  | .ok r => r
  | .error msg => { green := none, error := some msg }

/-! ### Batch inspector (`batchInspectGreenHosting`) -/

/-- The `DomainCheckResult` view of a cache entry, as the cache-hit branch of
`batchInspectGreenHosting` builds it:
`{green: cached.green, hostedBy: cached.hostedBy, error: cached.error}`. -/
def entryView (e : CacheEntry) : DomainCheckResult :=
  { green := e.green, hostedBy := e.hostedBy, error := e.error }

/-- The entry `{...result, timestamp: now}` cached after a lookup resolves. -/
def checkEntry (r : DomainCheckResult) (now : Int) : CacheEntry :=
  { green := r.green, hostedBy := r.hostedBy, error := r.error, timestamp := now }

/-- The cache consultation step of `batchInspectGreenHosting` for one domain:
a stored entry younger than `CACHE_EXPIRY` is returned; an absent key, or an
entry at least `CACHE_EXPIRY` old (which is deleted), yields `none`. -/
def cacheReadStep (now : Int) (cache : List (String × CacheEntry)) (d : String) :
    Option CacheEntry × List (String × CacheEntry) :=
  match mapGet? cache d with
  | some e =>
    if now - e.timestamp < CACHE_EXPIRY then (some e, cache)
    else (none, mapDelete cache d)
  | none => (none, cache)

/-- The first loop of `batchInspectGreenHosting`: partition the input domains
into cache hits (written to `results`) and `domainsToCheck`. -/
def phase1 (now : Int) :
    List String → List (String × CacheEntry) → List (String × DomainCheckResult) →
    List String →
    List (String × DomainCheckResult) × List (String × CacheEntry) × List String
  | [], cache, results, toCheck => (results, cache, toCheck)
  | d :: ds, cache, results, toCheck =>
    match cacheReadStep now cache d with
    | (some e, cache') => phase1 now ds cache' (mapSet results d (entryView e)) toCheck
    | (none, cache') => phase1 now ds cache' results (toCheck ++ [d])

/-- The lookup-and-merge loop of `batchInspectGreenHosting`: for each domain
to check, record `checkResult` in `results` and cache it with timestamp `now`. -/
def phase2 (net : GreenApi) (now : Int) :
    List String → List (String × CacheEntry) → List (String × DomainCheckResult) →
    List (String × DomainCheckResult) × List (String × CacheEntry)
  | [], cache, results => (results, cache)
  | d :: ds, cache, results =>
    phase2 net now ds (mapSet cache d (checkEntry (checkResult net d) now))
      (mapSet results d (checkResult net d))

/-- `batchInspectGreenHosting`, with the classification endpoint and the clock
as parameters and the module-level `urlCache` threaded explicitly. `checked`
records `domainsToCheck`, the domains actually sent to the network. -/
structure BatchOut where
  results : List (String × DomainCheckResult)
  cache : List (String × CacheEntry)
  checked : List String
  deriving Repr

def batchInspectGreenHosting (net : GreenApi) (now : Int) (domains : List String)
    (cache : List (String × CacheEntry)) : BatchOut :=
  match phase1 now domains cache [] [] with
  | (results, cache1, toCheck) =>
    if toCheck = [] then { results := results, cache := cache1, checked := toCheck }
    else
      match phase2 net now toCheck cache1 results with
      | (results2, cache2) => { results := results2, cache := cache2, checked := toCheck }

/-! ### Regex embedding

`FULL_URL_REGEX` and `DOMAIN_REGEX` (domainUtils.ts) are embedded as
backtracking matchers: each sub-pattern maps a start position to the list of
positions where it can stop, in the engine's backtracking priority order
(greedy quantifiers longest-first, alternatives in source order).  A whole
match is the first candidate in that order (after the trailing negative
lookahead, for `DOMAIN_REGEX`). -/

/-- JS `\s`: whitespace and line terminators (plus BOM). -/
def jsWhitespace (c : Char) : Bool :=
  c.val == 9 || c.val == 10 || c.val == 11 || c.val == 12 || c.val == 13 ||
  c.val == 32 || c.val == 160 || c.val == 0x1680 ||
  (0x2000 ≤ c.val && c.val ≤ 0x200A) || c.val == 0x2028 || c.val == 0x2029 ||
  c.val == 0x202F || c.val == 0x205F || c.val == 0x3000 || c.val == 0xFEFF

/-- The character class `[^\s"'`<>)\]]` terminating a URL path
(34 `"`, 39 `'`, 96 backquote). -/
def pathChar (c : Char) : Bool :=
  !(jsWhitespace c || c.val == 34 || c.val == 39 || c.val == 96 ||
    c == '<' || c == '>' || c == ')' || c == ']')

/-- `[a-zA-Z0-9-]`: a hostname-label interior character. -/
def alnumHyph (c : Char) : Bool := c.isAlphanum || c == '-'

/-- The class `[a-zA-Z0-9@/_]` of `DOMAIN_REGEX`'s negative lookbehind. -/
def lookbehindCls (c : Char) : Bool := c.isAlphanum || c == '@' || c == '/' || c == '_'

/-- The class `[a-zA-Z0-9_]` of `DOMAIN_REGEX`'s negative lookahead. -/
def lookaheadCls (c : Char) : Bool := c.isAlphanum || c == '_'

/-- Match one character of a class: a single stop candidate (or none). -/
def clsM (p : Char → Bool) (t : List Char) (i : Nat) : List Nat :=
  match t.get? i with
  | some c => if p c then [i + 1] else []
  | none => []

/-- Match a literal, case-insensitively (the regexes carry the `i` flag). -/
def litM (lit : List Char) (t : List Char) (i : Nat) : List Nat :=
  match lit with
  | [] => [i]
  | c :: cs =>
    match t.get? i with
    | some c' => if c'.toLower == c.toLower then litM cs t (i + 1) else []
    | none => []

/-- Greedy `(?:..)?`: try the body first, then the empty alternative. -/
def optM (f : Nat → List Nat) (i : Nat) : List Nat := f i ++ [i]

/-- Length of the maximal run of `p`-characters. -/
def runLen (p : Char → Bool) : List Char → Nat
  | [] => 0
  | c :: cs => if p c then runLen p cs + 1 else 0

/-- Greedy bounded repetition `p{lo,hi}` of a character class: stop positions
from `i + min hi run` down to `i + lo`. -/
def repM (p : Char → Bool) (lo hi : Nat) (t : List Char) (i : Nat) : List Nat :=
  let m := min hi (runLen p (t.drop i))
  if m < lo then [] else (List.range (m + 1 - lo)).map (fun k => i + m - k)

/-- Greedy unbounded repetition `p{lo,}` of a character class. -/
def repUnbM (p : Char → Bool) (lo : Nat) (t : List Char) (i : Nat) : List Nat :=
  let m := runLen p (t.drop i)
  if m < lo then [] else (List.range (m + 1 - lo)).map (fun k => i + m - k)

/-- Greedy `(?:..)*` over a group: more iterations are tried first; `fuel`
bounds the recursion (every group here consumes at least one character, so
`fuel = length + 1` loses nothing). -/
def starGrpM (f : Nat → List Nat) : Nat → Nat → List Nat
  | 0, i => [i]
  | fuel + 1, i => ((f i).flatMap fun j => starGrpM f fuel j) ++ [i]

/-- A hostname label `[a-zA-Z0-9](?:[a-zA-Z0-9-]{0,61}[a-zA-Z0-9])?`. -/
def labelM (t : List Char) (i : Nat) : List Nat :=
  (clsM Char.isAlphanum t i).flatMap fun j =>
    optM (fun k => (repM alnumHyph 0 61 t k).flatMap fun l => clsM Char.isAlphanum t l) j

/-- A hostname `label(?:\.label)*\.[a-zA-Z]{2,}`; each candidate is
`(tldStart, stop)`, so that the final label (the captured TLD) is `[tldStart, stop)`. -/
def hostM (t : List Char) (i : Nat) : List (Nat × Nat) :=
  (labelM t i).flatMap fun j =>
    (starGrpM (fun k => (clsM (fun c => c == '.') t k).flatMap (labelM t)) (t.length + 1) j).flatMap
      fun k =>
        (clsM (fun c => c == '.') t k).flatMap fun l =>
          (repUnbM Char.isAlpha 2 t l).map fun e => (l, e)

/-- The optional path `(?:\/[^\s"'`<>)\]]*)?`. -/
def pathOptM (t : List Char) (i : Nat) : List Nat :=
  optM (fun j => (clsM (fun c => c == '/') t j).flatMap (repUnbM pathChar 0 t)) i

/-- One attempt of `FULL_URL_REGEX` anchored at `i`:
`https?:\/\/(?:www\.)?(host)(?:\/path)?`.  Returns
`(hostStart, hostStop, matchStop)`; the captured domain is `[hostStart, hostStop)`.
No trailing lookahead, so the overall match is the first backtracking candidate. -/
def fullUrlMatchAt (t : List Char) (i : Nat) : Option (Nat × Nat × Nat) :=
  ((litM "http".data t i).flatMap fun a =>
    (optM (litM "s".data t) a).flatMap fun b =>
      (litM "://".data t b).flatMap fun c0 =>
        (optM (litM "www.".data t) c0).flatMap fun h =>
          (hostM t h).flatMap fun le =>
            (pathOptM t le.2).map fun m => (h, le.2, m)).head?

/-- One attempt of `DOMAIN_REGEX` anchored at `i`:
`(?<![a-zA-Z0-9@/_])(?:www\.)?(host.(tld))(?:\/path)?(?![a-zA-Z0-9_])`.
Returns `(hostStart, tldStart, hostStop, matchStop)`; the engine takes the
first backtracking candidate whose stop position satisfies the negative
lookahead. -/
def domainMatchAt (t : List Char) (i : Nat) : Option (Nat × Nat × Nat × Nat) :=
  let lookbehindOk : Bool :=
    match i with
    | 0 => true
    | j + 1 => match t.get? j with
      | some c => !lookbehindCls c
      | none => true
  let lookaheadOk : Nat → Bool := fun m =>
    match t.get? m with
    | some c => !lookaheadCls c
    | none => true
  if lookbehindOk then
    ((optM (litM "www.".data t) i).flatMap fun h =>
      (hostM t h).flatMap fun le =>
        (pathOptM t le.2).map fun m => (h, le.1, le.2, m)).find?
      (fun r => lookaheadOk r.2.2.2)
  else none

/-! ### The `exec` scan loop -/

/-- `regex.exec` with the `g` flag: the first anchored match at a position
`≥ i` (`fuel` bounds the position search; `t.length + 1 - i` suffices). -/
def findFromAux {α : Type} (matchAt : Nat → Option α) : Nat → Nat → Option (Nat × α)
  | 0, _ => none
  | fuel + 1, i =>
    match matchAt i with
    | some a => some (i, a)
    | none => findFromAux matchAt fuel (i + 1)

/-- The `while ((match = regex.exec(text)) !== null)` loop: all matches in
scan order, `lastIndex` advancing to each match's stop position. -/
def execAllAux {α : Type} (matchAt : Nat → Option α) (stopOf : α → Nat) (len : Nat) :
    Nat → Nat → List (Nat × α)
  | 0, _ => []
  | fuel + 1, i =>
    match findFromAux matchAt (len + 1 - i) i with
    | none => []
    | some (j, a) => (j, a) :: execAllAux matchAt stopOf len fuel (stopOf a)

/-- A raw `FULL_URL_REGEX` match: match span `[idx, mStop)`, captured
hostname `[hStart, hStop)`. -/
structure RawF where
  idx : Nat
  hStart : Nat
  hStop : Nat
  mStop : Nat
  deriving DecidableEq, Repr

/-- A raw `DOMAIN_REGEX` match: match span `[idx, mStop)`, captured hostname
`[hStart, hStop)`, captured TLD `[tStart, hStop)`. -/
structure RawD where
  idx : Nat
  hStart : Nat
  tStart : Nat
  hStop : Nat
  mStop : Nat
  deriving DecidableEq, Repr

/-- All `FULL_URL_REGEX` matches of a text, in scan order. -/
def fullUrlRawAll (t : List Char) : List RawF :=
  (execAllAux (fullUrlMatchAt t) (fun r => r.2.2) (t.length) (t.length + 1) 0).map
    fun ja => ⟨ja.1, ja.2.1, ja.2.2.1, ja.2.2.2⟩

/-- All `DOMAIN_REGEX` matches of a text, in scan order. -/
def domainRawAll (t : List Char) : List RawD :=
  (execAllAux (domainMatchAt t) (fun r => r.2.2.2) (t.length) (t.length + 1) 0).map
    fun ja => ⟨ja.1, ja.2.1, ja.2.2.1, ja.2.2.2.1, ja.2.2.2.2⟩

/-! ### Denylists and `isValidDomain` (domainUtils.ts) -/

/-- `EXCLUDE_PATTERNS`: file extensions and config-filename lookalikes. -/
def EXCLUDE_PATTERNS : List String := [
  "js", "ts", "tsx", "jsx", "css", "scss", "sass", "less", "html", "htm",
  "json", "xml", "yaml", "yml", "md", "txt", "csv", "svg", "png", "jpg",
  "jpeg", "gif", "ico", "woff", "woff2", "ttf", "eot", "pdf", "zip", "tar",
  "gz", "rar", "7z", "exe", "dll", "so", "dylib", "py", "rb", "php", "java",
  "go", "rs", "c", "cpp", "h", "hpp", "cs", "swift", "kt", "sh", "bash",
  "zsh", "fish", "ps1", "bat", "cmd", "env", "lock", "log", "map", "vue",
  "svelte", "astro", "prisma", "graphql", "sql", "db", "sqlite", "config",
  "localhost", "example.com", "example.org", "example.net", "test.com",
  "package.json", "package-lock.json", "tsconfig.json", "webpack.config",
  "babel.config", "eslint.config", "prettier.config", "jest.config"]

/-- `CODE_KEYWORDS`: first labels that mark a dotted code identifier. -/
def CODE_KEYWORDS : List String := [
  "this", "self", "super", "import", "export", "require", "module", "exports",
  "console", "logger", "log", "debug", "error", "warn", "info", "trace",
  "window", "document", "navigator", "location", "history", "screen",
  "process", "global", "globalThis", "Buffer",
  "Math", "JSON", "Object", "Array", "String", "Number", "Boolean", "Symbol",
  "Date", "Promise", "Proxy", "Reflect", "Map", "Set", "WeakMap", "WeakSet",
  "Error", "TypeError", "RangeError", "SyntaxError", "ReferenceError",
  "Function", "RegExp", "Int8Array", "Uint8Array", "Float32Array", "Float64Array",
  "Intl", "Atomics", "SharedArrayBuffer", "DataView", "ArrayBuffer",
  "app", "server", "client", "db", "database", "api", "router", "route",
  "req", "res", "request", "response", "ctx", "context", "config", "options",
  "props", "state", "store", "dispatch", "action", "reducer", "selector",
  "component", "element", "node", "event", "handler", "callback", "listener",
  "util", "utils", "helper", "helpers", "service", "services", "controller",
  "model", "schema", "type", "types", "interface", "enum",
  "print", "len", "str", "int", "float", "list", "dict", "tuple", "set",
  "cls", "kwargs", "args",
  "describe", "it", "test", "expect", "assert", "mock", "spy", "jest", "vi",
  "React", "Vue", "Angular", "Component", "Directive", "Pipe", "Injectable",
  "useState", "useEffect", "useRef", "useMemo", "useCallback", "useContext"]

/-- `VALID_TLDS`: the allowlist of top-level domains. -/
def VALID_TLDS : List String := [
  "com", "org", "net", "io", "co", "dev", "app", "ai", "cloud", "tech",
  "edu", "gov", "mil", "int", "eu", "uk", "de", "fr", "it", "es", "nl",
  "be", "ch", "at", "au", "ca", "us", "jp", "cn", "kr", "in", "br", "ru",
  "pl", "se", "no", "dk", "fi", "cz", "pt", "ie", "nz", "za", "mx", "ar",
  "cl", "co", "pe", "ve", "info", "biz", "pro", "museum", "aero",
  "jobs", "mobi", "travel", "xxx", "asia", "cat", "coop", "tel", "post",
  "me", "tv", "cc", "ws", "fm", "am", "ly", "gl", "gg", "to", "is", "it",
  "st", "su", "ac", "sh", "cx", "nu", "tk", "cf", "ga", "gq", "ml"]

/-- Does `pat` stand at the head of `l`? -/
def startsWithCh : List Char → List Char → Bool
  | [], _ => true
  | _ :: _, [] => false
  | p :: ps, c :: cs => p == c && startsWithCh ps cs

/-- JS `String.includes`: does `pat` occur anywhere in `l`? -/
def hasSubstr (pat : List Char) : List Char → Bool
  | [] => startsWithCh pat []
  | c :: rest => startsWithCh pat (c :: rest) || hasSubstr pat rest

/-- Consume `\d+` (at least one digit, then the maximal run). -/
def skipDigits : List Char → Option (List Char)
  | c :: cs => if c.isDigit then some (cs.dropWhile Char.isDigit) else none
  | [] => none

/-- Consume a literal dot. -/
def expectDot : List Char → Option (List Char)
  | '.' :: rest => some rest
  | _ => none

/-- JS `/^\d+\.\d+\.\d+\.\d+/.test(domain)`: a leading dotted quad. -/
def ipv4Lead (l : List Char) : Bool :=
  (((((((skipDigits l).bind expectDot).bind skipDigits).bind expectDot).bind
    skipDigits).bind expectDot).bind skipDigits).isSome

/-- JS `String.split('.')` on a character list. -/
def splitDotAux : List Char → List Char → List (List Char)
  | acc, [] => [acc.reverse]
  | acc, c :: cs => if c == '.' then acc.reverse :: splitDotAux [] cs else splitDotAux (c :: acc) cs

def splitDot (l : List Char) : List (List Char) := splitDotAux [] l

/-- JS `String.toLowerCase` (characterwise lowering). -/
def strLower (s : String) : String := ⟨s.data.map Char.toLower⟩

/-- `isValidDomain` from domainUtils.ts. -/
def isValidDomain (domain : String) : Bool :=
  let lower := strLower domain
  if hasSubstr "localhost".data lower.data || ipv4Lead domain.data then false
  else if EXCLUDE_PATTERNS.contains lower then false
  else
    let parts := splitDot lower.data
    let tld : String := ⟨parts.getLastD []⟩
    if !(VALID_TLDS.contains tld) then false
    else if parts.any (fun part => EXCLUDE_PATTERNS.contains ⟨part⟩ && decide (parts.length ≤ 2))
    then false
    else decide (4 ≤ domain.length)

/-! ### The two extraction pipelines -/

/-- `UrlMatch` from extension.ts, with the `Range` as character offsets
`[startOffset, endOffset)` into the text. -/
structure UrlMatch where
  url : String
  domain : String
  startOffset : Nat
  endOffset : Nat
  deriving DecidableEq, Repr

/-- The slice `[a, b)` of a text, as matched (original case). -/
def slice (t : List Char) (a b : Nat) : String := ⟨(t.drop a).take (b - a)⟩

/-- The slice `[a, b)` of a text, lowercased (JS `toLowerCase` on a capture). -/
def sliceLower (t : List Char) (a b : Nat) : String :=
  ⟨((t.drop a).take (b - a)).map Char.toLower⟩

/-- JS `/[a-zA-Z0-9_$]/.test` on a single optional character (an absent
character is the empty string, which no character class matches). -/
def testIdDollar : Option Char → Bool
  | some c => c.isAlphanum || c == '_' || c == '$'
  | none => false

/-- The acceptance condition of one pass-2 step of `extractUrlsWithRanges`
for one raw match, in source order: the first label is no code keyword; the
match is not preceded by `<identifier>.`; not followed by `(`; its start does
not lie inside an already accepted match; and domain and TLD validate. -/
def acceptBare (t : List Char) (r : RawD) (ms : List UrlMatch) : Bool :=
  !(CODE_KEYWORDS.contains ⟨(splitDot (sliceLower t r.hStart r.hStop).data).headD []⟩) &&
  !((if r.idx > 0 then t.get? (r.idx - 1) else none) == some '.' &&
    testIdDollar (if r.idx > 1 then t.get? (r.idx - 2) else none)) &&
  !(t.get? r.mStop == some '(') &&
  (!(ms.any fun m => r.idx ≥ m.startOffset && r.idx < m.endOffset) &&
    isValidDomain (sliceLower t r.hStart r.hStop) &&
    VALID_TLDS.contains (sliceLower t r.tStart r.hStop))

/-- The acceptance condition of one pass-2 step of `extractDomainsFromText`,
the same checks in that function's order, with the overlap check against the
pass-1 `matchedRanges`. -/
def acceptBareD (t : List Char) (r : RawD) (ranges : List (Nat × Nat)) : Bool :=
  !(CODE_KEYWORDS.contains ⟨(splitDot (sliceLower t r.hStart r.hStop).data).headD []⟩) &&
  !(ranges.any fun se => r.idx ≥ se.1 && r.idx < se.2) &&
  !((if r.idx > 0 then t.get? (r.idx - 1) else none) == some '.' &&
    testIdDollar (if r.idx > 1 then t.get? (r.idx - 2) else none)) &&
  !(t.get? r.mStop == some '(') &&
  (isValidDomain (sliceLower t r.hStart r.hStop) &&
    VALID_TLDS.contains (sliceLower t r.tStart r.hStop))

/-- Pass 1 of `extractUrlsWithRanges`: keep each full-URL match whose
lowercased captured hostname passes `isValidDomain`. -/
def urlPass1 (t : List Char) : List RawF → List UrlMatch → List UrlMatch
  | [], ms => ms
  | r :: rs, ms =>
    let domain := sliceLower t r.hStart r.hStop
    if isValidDomain domain then
      urlPass1 t rs (ms ++ [⟨slice t r.idx r.mStop, domain, r.idx, r.mStop⟩])
    else urlPass1 t rs ms

/-- Pass 2 of `extractUrlsWithRanges`: bare-domain matches filtered by the
code-keyword denylist, the property-access and call heuristics, the overlap
check against already accepted matches, and domain validation
(the conjunction `acceptBare`, mirroring the loop's continue-chain). -/
def urlPass2 (t : List Char) : List RawD → List UrlMatch → List UrlMatch
  | [], ms => ms
  | r :: rs, ms =>
    if acceptBare t r ms then
      urlPass2 t rs
        (ms ++ [⟨slice t r.idx r.mStop, sliceLower t r.hStart r.hStop, r.idx, r.mStop⟩])
    else urlPass2 t rs ms

/-- The pass-1 matches alone (the state of `matches` when pass 2 starts). -/
def fullUrlPassMatches (s : String) : List UrlMatch :=
  urlPass1 s.data (fullUrlRawAll s.data) []

/-- `extractUrlsWithRanges` from extension.ts (offsets in place of `Range`s). -/
def extractUrlsWithRanges (s : String) : List UrlMatch :=
  urlPass2 s.data (domainRawAll s.data) (fullUrlPassMatches s)

/-- Pass 1 of `extractDomainsFromText` (metricsPanel.ts): accumulate the valid
full-URL domains and their matched ranges. -/
def domPass1 (t : List Char) :
    List RawF → List String × List (Nat × Nat) → List String × List (Nat × Nat)
  | [], acc => acc
  | r :: rs, (domains, ranges) =>
    let domain := sliceLower t r.hStart r.hStop
    if isValidDomain domain then
      domPass1 t rs (domains ++ [domain], ranges ++ [(r.idx, r.mStop)])
    else domPass1 t rs (domains, ranges)

/-- Pass 2 of `extractDomainsFromText`: the same heuristics, with the overlap
check against the pass-1 `matchedRanges` (the conjunction `acceptBareD`,
mirroring that loop's continue-chain). -/
def domPass2 (t : List Char) (ranges : List (Nat × Nat)) : List RawD → List String → List String
  | [], domains => domains
  | r :: rs, domains =>
    if acceptBareD t r ranges then domPass2 t ranges rs (domains ++ [sliceLower t r.hStart r.hStop])
    else domPass2 t ranges rs domains

/-- `extractDomainsFromText` from metricsPanel.ts. -/
def extractDomainsFromText (s : String) : List String :=
  let t := s.data
  let p1 := domPass1 t (fullUrlRawAll t) ([], [])
  domPass2 t p1.2 (domainRawAll t) p1.1

/-! ### Ordering and overlap predicates on match lists -/

/-- Adjacent start offsets are non-decreasing. -/
def startsSortedB : List UrlMatch → Bool
  | [] => true
  | [_] => true
  | a :: b :: rest => decide (a.startOffset ≤ b.startOffset) && startsSortedB (b :: rest)

/-- The spans `[start, end)` of two matches do not intersect. -/
def spansDisjointB (a b : UrlMatch) : Bool :=
  decide (a.endOffset ≤ b.startOffset) || decide (b.endOffset ≤ a.startOffset)

/-- No two matches of the list have intersecting spans. -/
def noOverlapB : List UrlMatch → Bool
  | [] => true
  | a :: rest => rest.all (spansDisjointB a) && noOverlapB rest

/-- A list of matches in strictly increasing, mutually disjoint position:
every match is nonempty and ends no later than the next one starts. -/
def sortedDisjoint (ms : List UrlMatch) : Prop :=
  List.Pairwise (fun a b => a.endOffset ≤ b.startOffset) ms ∧
    ∀ m ∈ ms, m.startOffset < m.endOffset

/-- A sample endpoint that is rate limited for every domain. -/
def rateLimitedNet : GreenApi :=
  fun _ => .ok { status := 429, ok := false, body := .error "no body" }

/-- A sample endpoint failing at the transport level for `x.com` and
succeeding for every other domain. -/
def mixedNet : GreenApi := fun d =>
  if d = "x.com" then .error "connection reset"
  else .ok { status := 200, ok := true, body := .ok { green := true, hosted_by := some "GreenHost" } }

/-! ## Lemmas about the map operations -/

theorem mapGet?_mapSet_self {α : Type} (m : List (String × α)) (k : String) (v : α) :
    mapGet? (mapSet m k v) k = some v := by
  induction m with
  | nil => simp [mapSet, mapGet?]
  | cons p rest ih =>
    obtain ⟨k', v'⟩ := p
    by_cases h : k' = k <;> simp [mapSet, mapGet?, h, ih]

theorem mapGet?_mapSet_ne {α : Type} (m : List (String × α)) (k k' : String) (v : α)
    (h : k ≠ k') : mapGet? (mapSet m k v) k' = mapGet? m k' := by
  induction m with
  | nil => simp [mapSet, mapGet?, h]
  | cons p rest ih =>
    obtain ⟨k0, v0⟩ := p
    by_cases h0 : k0 = k
    · subst h0
      simp [mapSet, mapGet?, h]
    · simp only [mapSet, if_neg h0, mapGet?]
      by_cases h1 : k0 = k' <;> simp [h1, ih]

theorem mapGet?_mapDelete_ne {α : Type} (m : List (String × α)) (k k' : String)
    (h : k ≠ k') : mapGet? (mapDelete m k) k' = mapGet? m k' := by
  induction m with
  | nil => simp [mapDelete]
  | cons p rest ih =>
    obtain ⟨k0, v0⟩ := p
    by_cases h0 : k0 = k
    · subst h0
      simp [mapDelete, mapGet?, h]
    · simp only [mapDelete, if_neg h0, mapGet?]
      by_cases h1 : k0 = k' <;> simp [h1, ih]

theorem mem_mapKeys_mapSet {α : Type} (m : List (String × α)) (k a : String) (v : α) :
    a ∈ mapKeys (mapSet m k v) ↔ a ∈ mapKeys m ∨ a = k := by
  induction m with
  | nil => simp [mapSet, mapKeys]
  | cons p rest ih =>
    obtain ⟨k0, v0⟩ := p
    by_cases h0 : k0 = k
    · subst h0
      simp only [mapSet, mapKeys, List.map_cons, List.mem_cons, if_pos] at ih ⊢
      tauto
    · simp only [mapSet, mapKeys, List.map_cons, List.mem_cons, if_neg h0] at ih ⊢
      tauto

theorem nodup_mapKeys_mapSet {α : Type} (m : List (String × α)) (k : String) (v : α)
    (h : (mapKeys m).Nodup) : (mapKeys (mapSet m k v)).Nodup := by
  induction m with
  | nil => simp [mapSet, mapKeys]
  | cons p rest ih =>
    obtain ⟨k0, v0⟩ := p
    simp only [mapKeys, List.map_cons, List.nodup_cons] at h
    by_cases h0 : k0 = k
    · subst h0
      simpa [mapSet, mapKeys, List.nodup_cons] using h
    · simp only [mapSet, if_neg h0, mapKeys, List.map_cons, List.nodup_cons]
      refine ⟨fun hmem => ?_, ih h.2⟩
      rw [show (mapSet rest k v).map Prod.fst = mapKeys (mapSet rest k v) from rfl,
        mem_mapKeys_mapSet] at hmem
      rcases hmem with hmem | hmem
      · exact h.1 hmem
      · exact h0 hmem

theorem mapGet?_eq_none_iff {α : Type} (m : List (String × α)) (k : String) :
    mapGet? m k = none ↔ k ∉ mapKeys m := by
  induction m with
  | nil => simp [mapGet?, mapKeys]
  | cons p rest ih =>
    obtain ⟨k0, v0⟩ := p
    by_cases h0 : k0 = k
    · subst h0
      simp [mapGet?, mapKeys]
    · simp [mapGet?, mapKeys, h0, ih, Ne.symm h0]

/-! ## Lemmas about the batch inspector -/

theorem CACHE_EXPIRY_pos : (0 : Int) < CACHE_EXPIRY := by decide

theorem phase1_toCheck_append (now : Int) (ds : List String) :
    ∀ c res tc, ∃ ex, (phase1 now ds c res tc).2.2 = tc ++ ex := by
  induction ds with
  | nil => intro c res tc; exact ⟨[], by simp [phase1]⟩
  | cons d ds ih =>
    intro c res tc
    rcases h : cacheReadStep now c d with ⟨o, c'⟩
    cases o with
    | some e =>
      obtain ⟨ex, hex⟩ := ih c' (mapSet res d (entryView e)) tc
      exact ⟨ex, by simp only [phase1, h]; exact hex⟩
    | none =>
      obtain ⟨ex, hex⟩ := ih c' res (tc ++ [d])
      refine ⟨d :: ex, ?_⟩
      simp only [phase1, h]
      simpa using hex

theorem phase1_keys (now : Int) (ds : List String) :
    ∀ c res tc,
      ((mapKeys res).Nodup → (mapKeys (phase1 now ds c res tc).1).Nodup) ∧
      (∀ k, (k ∈ mapKeys (phase1 now ds c res tc).1 ∨ k ∈ (phase1 now ds c res tc).2.2) ↔
        (k ∈ mapKeys res ∨ k ∈ tc ∨ k ∈ ds)) := by
  induction ds with
  | nil =>
    intro c res tc
    constructor
    · intro h; simpa [phase1] using h
    · intro k; simp [phase1]
  | cons d ds ih =>
    intro c res tc
    rcases h : cacheReadStep now c d with ⟨o, c'⟩
    cases o with
    | some e =>
      have ihs := ih c' (mapSet res d (entryView e)) tc
      constructor
      · intro hres
        have := ihs.1 (nodup_mapKeys_mapSet _ _ _ hres)
        simp only [phase1, h]
        exact this
      · intro k
        have hmem := ihs.2 k
        simp only [phase1, h]
        rw [hmem, mem_mapKeys_mapSet]
        simp only [List.mem_cons]
        tauto
    | none =>
      have ihs := ih c' res (tc ++ [d])
      constructor
      · intro hres
        have := ihs.1 hres
        simp only [phase1, h]
        exact this
      · intro k
        have hmem := ihs.2 k
        simp only [phase1, h]
        rw [hmem]
        simp only [List.mem_append, List.mem_cons, List.mem_singleton]
        tauto

theorem phase2_keys (net : GreenApi) (now : Int) (tc : List String) :
    ∀ c res,
      ((mapKeys res).Nodup → (mapKeys (phase2 net now tc c res).1).Nodup) ∧
      (∀ k, k ∈ mapKeys (phase2 net now tc c res).1 ↔ k ∈ mapKeys res ∨ k ∈ tc) := by
  induction tc with
  | nil =>
    intro c res
    constructor
    · intro h; simpa [phase2] using h
    · intro k; simp [phase2]
  | cons d tc ih =>
    intro c res
    have ihs := ih (mapSet c d (checkEntry (checkResult net d) now)) (mapSet res d (checkResult net d))
    constructor
    · intro hres
      have := ihs.1 (nodup_mapKeys_mapSet _ _ _ hres)
      simpa only [phase2] using this
    · intro k
      have hmem := ihs.2 k
      simp only [phase2]
      rw [hmem, mem_mapKeys_mapSet]
      simp only [List.mem_cons]
      tauto

theorem phase2_get_of_not_mem (net : GreenApi) (now : Int) (tc : List String) :
    ∀ c res d, d ∉ tc →
      mapGet? (phase2 net now tc c res).1 d = mapGet? res d ∧
      mapGet? (phase2 net now tc c res).2 d = mapGet? c d := by
  induction tc with
  | nil => intro c res d _; simp [phase2]
  | cons d0 tc ih =>
    intro c res d hd
    have hne : d0 ≠ d := fun h => hd (h ▸ List.mem_cons_self d0 tc)
    have hdtc : d ∉ tc := fun h => hd (List.mem_cons_of_mem d0 h)
    have ihs := ih (mapSet c d0 (checkEntry (checkResult net d0) now)) (mapSet res d0 (checkResult net d0)) d hdtc
    simp only [phase2]
    exact ⟨by rw [ihs.1, mapGet?_mapSet_ne _ _ _ _ hne],
      by rw [ihs.2, mapGet?_mapSet_ne _ _ _ _ hne]⟩

theorem phase2_get_of_mem (net : GreenApi) (now : Int) (tc : List String) :
    ∀ c res d, d ∈ tc →
      mapGet? (phase2 net now tc c res).1 d = some (checkResult net d) ∧
      mapGet? (phase2 net now tc c res).2 d = some (checkEntry (checkResult net d) now) := by
  induction tc with
  | nil => intro c res d hd; exact absurd hd (List.not_mem_nil d)
  | cons d0 tc ih =>
    intro c res d hd
    by_cases hdtc : d ∈ tc
    · have ihs := ih (mapSet c d0 (checkEntry (checkResult net d0) now)) (mapSet res d0 (checkResult net d0)) d hdtc
      simp only [phase2]
      exact ihs
    · have hd0 : d = d0 := by
        rcases List.mem_cons.mp hd with h | h
        · exact h
        · exact absurd h hdtc
      subst hd0
      have ihs := phase2_get_of_not_mem net now tc (mapSet c d (checkEntry (checkResult net d) now)) (mapSet res d (checkResult net d)) d hdtc
      simp only [phase2]
      rw [ihs.1, ihs.2, mapGet?_mapSet_self, mapGet?_mapSet_self]
      exact ⟨rfl, rfl⟩


theorem phase1_keep (now : Int) (ds : List String) :
    ∀ c res tc (d : String) (e : CacheEntry), mapGet? c d = some e →
      now - e.timestamp < CACHE_EXPIRY → mapGet? res d = some (entryView e) →
      mapGet? (phase1 now ds c res tc).2.1 d = some e ∧
      mapGet? (phase1 now ds c res tc).1 d = some (entryView e) := by
  induction ds with
  | nil =>
    intro c res tc d e hc _ hres
    exact ⟨by simpa [phase1] using hc, by simpa [phase1] using hres⟩
  | cons d0 ds ih =>
    intro c res tc d e hc hfresh hres
    by_cases hd : d0 = d
    · subst hd
      have hstep : cacheReadStep now c d0 = (some e, c) := by
        simp [cacheReadStep, hc, hfresh]
      simp only [phase1, hstep]
      exact ih c (mapSet res d0 (entryView e)) tc d0 e hc hfresh
        (by rw [mapGet?_mapSet_self])
    · rcases hc0 : mapGet? c d0 with _ | e0
      · have hstep : cacheReadStep now c d0 = (none, c) := by simp [cacheReadStep, hc0]
        simp only [phase1, hstep]
        exact ih c res (tc ++ [d0]) d e hc hfresh hres
      · by_cases hf0 : now - e0.timestamp < CACHE_EXPIRY
        · have hstep : cacheReadStep now c d0 = (some e0, c) := by
            simp [cacheReadStep, hc0, hf0]
          simp only [phase1, hstep]
          exact ih c (mapSet res d0 (entryView e0)) tc d e hc hfresh
            (by rw [mapGet?_mapSet_ne _ _ _ _ hd]; exact hres)
        · have hstep : cacheReadStep now c d0 = (none, mapDelete c d0) := by
            simp [cacheReadStep, hc0, hf0]
          simp only [phase1, hstep]
          exact ih (mapDelete c d0) res (tc ++ [d0]) d e
            (by rw [mapGet?_mapDelete_ne _ _ _ hd]; exact hc) hfresh hres

theorem phase1_hit_or_check (now : Int) (ds : List String) :
    ∀ c res tc (d : String), d ∈ ds →
      d ∈ (phase1 now ds c res tc).2.2 ∨
      ∃ e, mapGet? (phase1 now ds c res tc).2.1 d = some e ∧
        now - e.timestamp < CACHE_EXPIRY ∧
        mapGet? (phase1 now ds c res tc).1 d = some (entryView e) := by
  induction ds with
  | nil => intro c res tc d hd; exact absurd hd (List.not_mem_nil d)
  | cons d0 ds ih =>
    intro c res tc d hd
    rcases hc0 : mapGet? c d0 with _ | e0
    · have hstep : cacheReadStep now c d0 = (none, c) := by simp [cacheReadStep, hc0]
      simp only [phase1, hstep]
      rcases List.mem_cons.mp hd with hd' | hd'
      · subst hd'
        obtain ⟨ex, hex⟩ := phase1_toCheck_append now ds c res (tc ++ [d])
        left
        rw [hex]
        simp
      · exact ih c res (tc ++ [d0]) d hd'
    · by_cases hf0 : now - e0.timestamp < CACHE_EXPIRY
      · have hstep : cacheReadStep now c d0 = (some e0, c) := by
          simp [cacheReadStep, hc0, hf0]
        simp only [phase1, hstep]
        rcases List.mem_cons.mp hd with hd' | hd'
        · subst hd'
          right
          have hkeep := phase1_keep now ds c (mapSet res d (entryView e0)) tc d e0 hc0 hf0
            (by rw [mapGet?_mapSet_self])
          exact ⟨e0, hkeep.1, hf0, hkeep.2⟩
        · exact ih c (mapSet res d0 (entryView e0)) tc d hd'
      · have hstep : cacheReadStep now c d0 = (none, mapDelete c d0) := by
          simp [cacheReadStep, hc0, hf0]
        simp only [phase1, hstep]
        rcases List.mem_cons.mp hd with hd' | hd'
        · subst hd'
          obtain ⟨ex, hex⟩ := phase1_toCheck_append now ds (mapDelete c d) res (tc ++ [d])
          left
          rw [hex]
          simp
        · exact ih (mapDelete c d0) res (tc ++ [d0]) d hd'


theorem batch_post (net : GreenApi) (now : Int) (ds : List String)
    (cache : List (String × CacheEntry)) (d : String) (hd : d ∈ ds) :
    ∃ e, mapGet? (batchInspectGreenHosting net now ds cache).cache d = some e ∧
      now - e.timestamp < CACHE_EXPIRY ∧
      mapGet? (batchInspectGreenHosting net now ds cache).results d = some (entryView e) := by
  have hsplit := phase1_hit_or_check now ds cache [] [] d hd
  unfold batchInspectGreenHosting
  rcases hP : phase1 now ds cache [] [] with ⟨res1, c1, tc1⟩
  rw [hP] at hsplit
  simp only [hP]
  by_cases htc : tc1 = []
  · subst htc
    simp only [if_pos rfl]
    rcases hsplit with h | ⟨e, h1, h2, h3⟩
    · exact absurd h (List.not_mem_nil d)
    · exact ⟨e, h1, h2, h3⟩
  · simp only [if_neg htc]
    have hmem2 := phase2_get_of_mem net now tc1 c1 res1 d
    have hnm2 := phase2_get_of_not_mem net now tc1 c1 res1 d
    rcases hQ : phase2 net now tc1 c1 res1 with ⟨res2, c2⟩
    rw [hQ] at hmem2 hnm2
    simp only [hQ]
    by_cases hm : d ∈ tc1
    · refine ⟨checkEntry (checkResult net d) now, (hmem2 hm).2, ?_, ?_⟩
      · simpa [checkEntry] using CACHE_EXPIRY_pos
      · rw [(hmem2 hm).1]
        rfl
    · rcases hsplit with h | ⟨e, h1, hf, h3⟩
      · exact absurd h hm
      · refine ⟨e, ?_, hf, ?_⟩
        · rw [(hnm2 hm).2]
          exact h1
        · rw [(hnm2 hm).1]
          exact h3

theorem batch_keys (net : GreenApi) (now : Int) (ds : List String)
    (cache : List (String × CacheEntry)) :
    (mapKeys (batchInspectGreenHosting net now ds cache).results).Nodup ∧
    ∀ k, k ∈ mapKeys (batchInspectGreenHosting net now ds cache).results ↔ k ∈ ds := by
  have h1 := phase1_keys now ds cache [] []
  unfold batchInspectGreenHosting
  rcases hP : phase1 now ds cache [] [] with ⟨res1, c1, tc1⟩
  rw [hP] at h1
  simp only [hP]
  have hres1nd : (mapKeys res1).Nodup := h1.1 (by simp [mapKeys])
  by_cases htc : tc1 = []
  · subst htc
    simp only [if_pos rfl]
    refine ⟨hres1nd, fun k => ?_⟩
    have hk := h1.2 k
    simpa [mapKeys] using hk
  · simp only [if_neg htc]
    have h2 := phase2_keys net now tc1 c1 res1
    rcases hQ : phase2 net now tc1 c1 res1 with ⟨res2, c2⟩
    rw [hQ] at h2
    simp only [hQ]
    refine ⟨h2.1 hres1nd, fun k => ?_⟩
    rw [h2.2 k]
    have hk := h1.2 k
    simp only [mapKeys, List.map_nil, List.not_mem_nil, false_or, or_false] at hk
    rw [← hk]
    simp [mapKeys]

theorem phase1_allFresh (now : Int) (ds : List String) :
    ∀ c res tc,
      (∀ d ∈ ds, ∃ e, mapGet? c d = some e ∧ now - e.timestamp < CACHE_EXPIRY) →
      (phase1 now ds c res tc).2.1 = c ∧ (phase1 now ds c res tc).2.2 = tc ∧
      ∀ k, mapGet? (phase1 now ds c res tc).1 k =
        if k ∈ ds then (mapGet? c k).map entryView else mapGet? res k := by
  induction ds with
  | nil =>
    intro c res tc _
    refine ⟨by simp [phase1], by simp [phase1], fun k => ?_⟩
    simp [phase1]
  | cons d0 ds ih =>
    intro c res tc h
    obtain ⟨e0, hc0, hf0⟩ := h d0 (List.mem_cons_self d0 ds)
    have hstep : cacheReadStep now c d0 = (some e0, c) := by simp [cacheReadStep, hc0, hf0]
    have ihs := ih c (mapSet res d0 (entryView e0)) tc
      (fun d hd => h d (List.mem_cons_of_mem d0 hd))
    simp only [phase1, hstep]
    refine ⟨ihs.1, ihs.2.1, fun k => ?_⟩
    rw [ihs.2.2 k]
    by_cases hk : k ∈ ds
    · simp [hk, List.mem_cons]
    · by_cases hk0 : k = d0
      · subst hk0
        simp [hk, mapGet?_mapSet_self, hc0]
      · simp [hk, hk0, mapGet?_mapSet_ne _ _ _ _ (Ne.symm hk0)]


theorem apiError_ne_rateLimited (s : String) :
    "API error (HTTP " ++ s ++ ")" ≠ "Rate limited - too many requests" := by
  intro h
  have h1 : ("API error (HTTP " ++ s ++ ")").data.head? = some 'A' := by
    rw [String.data_append, String.data_append]
    rfl
  rw [h] at h1
  exact absurd h1 (by decide)

theorem batch_allFresh (net : GreenApi) (now : Int) (ds : List String)
    (c : List (String × CacheEntry))
    (h : ∀ d ∈ ds, ∃ e, mapGet? c d = some e ∧ now - e.timestamp < CACHE_EXPIRY) :
    (batchInspectGreenHosting net now ds c).checked = [] ∧
    ∀ k, mapGet? (batchInspectGreenHosting net now ds c).results k =
      if k ∈ ds then (mapGet? c k).map entryView else none := by
  obtain ⟨hc2, htc2, hpoint⟩ := phase1_allFresh now ds c [] [] h
  unfold batchInspectGreenHosting
  rcases hP : phase1 now ds c [] [] with ⟨R, C2, T2⟩
  rw [hP] at hc2 htc2 hpoint
  have hT : T2 = [] := htc2
  subst hT
  simp only [hP, if_pos rfl]
  refine ⟨rfl, fun k => ?_⟩
  have hk : mapGet? R k = if k ∈ ds then (mapGet? c k).map entryView
      else mapGet? ([] : List (String × DomainCheckResult)) k := hpoint k
  rw [show mapGet? ([] : List (String × DomainCheckResult)) k = none from rfl] at hk
  exact hk

/-- Claim C2: for every input list of domains, whatever the cache holds and
however lookups succeed or fail, the mapping returned by
`batchInspectGreenHosting` has pairwise-distinct keys, and its keys are
exactly the input domains. -/
theorem batch_results_keys_exactly_inputs (net : GreenApi) (now : Int) (ds : List String)
    (cache : List (String × CacheEntry)) :
    (mapKeys (batchInspectGreenHosting net now ds cache).results).Nodup ∧
    ∀ d, d ∈ mapKeys (batchInspectGreenHosting net now ds cache).results ↔ d ∈ ds :=
  batch_keys net now ds cache

/-- Claim C3: the cache consultation step of `batchInspectGreenHosting`
returns a stored entry when `now - timestamp < CACHE_EXPIRY` (7 days in ms),
treats a missing key as absent, and treats an entry at least that old as
absent while deleting it from the cache. -/
theorem cache_read_step_contract (now : Int) (cache : List (String × CacheEntry)) (d : String) :
    (mapGet? cache d = none → cacheReadStep now cache d = (none, cache)) ∧
    ∀ e, mapGet? cache d = some e →
      (now - e.timestamp < CACHE_EXPIRY → cacheReadStep now cache d = (some e, cache)) ∧
      (CACHE_EXPIRY ≤ now - e.timestamp →
        cacheReadStep now cache d = (none, mapDelete cache d)) := by
  refine ⟨fun h => by simp [cacheReadStep, h], fun e he => ⟨fun hf => ?_, fun hf => ?_⟩⟩
  · simp [cacheReadStep, he, hf]
  · simp [cacheReadStep, he, not_lt.mpr hf]

/-- Witness for C3: a one-hour-old entry is served; after eight days it is
absent and evicted. -/
theorem cache_read_step_contract_witness :
    cacheReadStep 3600000 [("a.com", { green := some true, timestamp := 0 })] "a.com" =
      (some { green := some true, timestamp := 0 },
        [("a.com", { green := some true, timestamp := 0 })]) ∧
    cacheReadStep (8 * 24 * 60 * 60 * 1000) [("a.com", { green := some true, timestamp := 0 })]
        "a.com" =
      (none, mapDelete [("a.com", { green := some true, timestamp := 0 })] "a.com") := by
  constructor
  · exact ((cache_read_step_contract 3600000 _ "a.com").2
      { green := some true, timestamp := 0 } (by decide)).1 (by decide)
  · exact ((cache_read_step_contract (8 * 24 * 60 * 60 * 1000) _ "a.com").2
      { green := some true, timestamp := 0 } (by decide)).2 (by decide)

/-- Claim C4: a transport failure for one domain does not disturb the other:
with `x`'s lookup throwing and `y`'s succeeding, both domains are mapped, `x`
to `{green: null, error: <the nonempty message>}` and `y` to the parsed
response. -/
theorem batch_isolates_single_failure (net : GreenApi) (now : Int)
    (cache : List (String × CacheEntry)) (x y ex : String) (ry : ApiResponse) (py : ApiPayload)
    (hxy : x ≠ y) (hcx : mapGet? cache x = none) (hcy : mapGet? cache y = none)
    (hx : net x = .error ex) (hex : ex ≠ "")
    (hy : net y = .ok ry) (hok : ry.ok = true) (hbody : ry.body = .ok py) :
    mapGet? (batchInspectGreenHosting net now [x, y] cache).results x =
      some { green := none, hostedBy := none, error := some ex } ∧
    mapGet? (batchInspectGreenHosting net now [x, y] cache).results y =
      some { green := some py.green, hostedBy := py.hosted_by, error := none } ∧
    ex ≠ "" := by
  have hrx : checkResult net x = { green := none, hostedBy := none, error := some ex } := by
    simp [checkResult, checkSingleDomain, hx]
  have hry : checkResult net y =
      { green := some py.green, hostedBy := py.hosted_by, error := none } := by
    simp [checkResult, checkSingleDomain, hy, hok, hbody]
  have hp1 : phase1 now [x, y] cache [] [] = ([], cache, [x, y]) := by
    simp [phase1, cacheReadStep, hcx, hcy]
  have hres : (batchInspectGreenHosting net now [x, y] cache).results =
      mapSet (mapSet [] x (checkResult net x)) y (checkResult net y) := by
    unfold batchInspectGreenHosting
    rw [hp1]
    simp [phase2]
  rw [hres, hrx, hry]
  refine ⟨?_, ?_, hex⟩
  · rw [mapGet?_mapSet_ne _ _ _ _ (Ne.symm hxy), mapGet?_mapSet_self]
  · rw [mapGet?_mapSet_self]

/-- Witness for C4 at a concrete endpoint: `x.com` fails at transport level,
`y.com` parses green. -/
theorem batch_isolates_single_failure_witness :
    mapGet? (batchInspectGreenHosting mixedNet 0 ["x.com", "y.com"] []).results "x.com" =
      some { green := none, hostedBy := none, error := some "connection reset" } ∧
    mapGet? (batchInspectGreenHosting mixedNet 0 ["x.com", "y.com"] []).results "y.com" =
      some { green := some true, hostedBy := some "GreenHost", error := none } := by
  have h := batch_isolates_single_failure mixedNet 0 [] "x.com" "y.com" "connection reset"
    { status := 200, ok := true, body := .ok { green := true, hosted_by := some "GreenHost" } }
    { green := true, hosted_by := some "GreenHost" }
    (by decide) rfl rfl rfl (by decide) rfl rfl rfl
  exact ⟨h.1, h.2.1⟩

/-- Claim C6: calling `batchInspectGreenHosting` twice with the same domains
and the same clock yields the same mapping the second time, and the second
call sends nothing to the network (`checked = []`): it is served from the
cache the first call populated, failed lookups included. -/
theorem batch_idempotent_second_call_cached (net : GreenApi) (now : Int) (ds : List String)
    (cache : List (String × CacheEntry)) :
    (batchInspectGreenHosting net now ds
        (batchInspectGreenHosting net now ds cache).cache).checked = [] ∧
    ∀ d, mapGet? (batchInspectGreenHosting net now ds
        (batchInspectGreenHosting net now ds cache).cache).results d =
      mapGet? (batchInspectGreenHosting net now ds cache).results d := by
  have hfresh : ∀ d ∈ ds, ∃ e,
      mapGet? (batchInspectGreenHosting net now ds cache).cache d = some e ∧
      now - e.timestamp < CACHE_EXPIRY :=
    fun d hd => (batch_post net now ds cache d hd).imp fun e h => ⟨h.1, h.2.1⟩
  obtain ⟨hchk, hmap⟩ := batch_allFresh net now ds _ hfresh
  refine ⟨hchk, fun d => ?_⟩
  rw [hmap d]
  by_cases hd : d ∈ ds
  · obtain ⟨e, h1, _, h3⟩ := batch_post net now ds cache d hd
    rw [if_pos hd, h1, h3]
    rfl
  · rw [if_neg hd]
    symm
    rw [mapGet?_eq_none_iff]
    intro hmem
    exact hd (((batch_keys net now ds cache).2 d).mp hmem)

/-- Claim C7 (amended): an HTTP 429 response is recorded as `{green: null}`
with the error message `'Rate limited - too many requests'`, which differs
from the `'API error (HTTP <status>)'` message every other non-success
status produces. -/
theorem rate_limited_message (net : GreenApi) (now : Int)
    (cache : List (String × CacheEntry)) (d : String) (r : ApiResponse)
    (hr : net d = .ok r) (hok : r.ok = false) (hst : r.status = 429)
    (hc : mapGet? cache d = none) :
    mapGet? (batchInspectGreenHosting net now [d] cache).results d =
      some { green := none, hostedBy := none, error := some "Rate limited - too many requests" } ∧
    ∀ r2 : ApiResponse, r2.ok = false → r2.status ≠ 429 →
      checkSingleDomain (fun _ => .ok r2) d =
        .error ("API error (HTTP " ++ toString r2.status ++ ")") ∧
      ("API error (HTTP " ++ toString r2.status ++ ")" : String) ≠
        "Rate limited - too many requests" := by
  constructor
  · have hrd : checkResult net d =
        { green := none, hostedBy := none, error := some "Rate limited - too many requests" } := by
      simp [checkResult, checkSingleDomain, hr, hok, hst]
    have hp1 : phase1 now [d] cache [] [] = ([], cache, [d]) := by
      simp [phase1, cacheReadStep, hc]
    unfold batchInspectGreenHosting
    rw [hp1]
    simp [phase2, hrd, mapGet?_mapSet_self]
  · intro r2 h2ok h2st
    have hb : (r2.status == 429) = false := beq_eq_false_iff_ne.mpr h2st
    exact ⟨by simp [checkSingleDomain, h2ok, hb], apiError_ne_rateLimited _⟩

/-- Counterexample for C7: the recorded message is the code's
`'Rate limited - too many requests'`, not the spec's `"rate limited"`. -/
theorem rate_limited_message_counterexample :
    mapGet? (batchInspectGreenHosting rateLimitedNet 0 ["x.com"] []).results "x.com" ≠
      some { green := none, hostedBy := none, error := some "rate limited" } ∧
    mapGet? (batchInspectGreenHosting rateLimitedNet 0 ["x.com"] []).results "x.com" =
      some { green := none, hostedBy := none, error := some "Rate limited - too many requests" } := by
  constructor
  · decide
  · decide

/-- Witness for C7 at a concrete 429 endpoint. -/
theorem rate_limited_message_witness :
    mapGet? (batchInspectGreenHosting rateLimitedNet 0 ["x.com"] []).results "x.com" =
      some { green := none, hostedBy := none, error := some "Rate limited - too many requests" } :=
  (rate_limited_message rateLimitedNet 0 [] "x.com"
    { status := 429, ok := false, body := .error "no body" } rfl rfl rfl rfl).1

/-- Claim C10: inspecting an empty domain list returns an empty mapping,
checks nothing against the network, and leaves the cache untouched. -/
theorem batch_empty_domains (net : GreenApi) (now : Int) (cache : List (String × CacheEntry)) :
    batchInspectGreenHosting net now [] cache = { results := [], cache := cache, checked := [] } :=
  rfl

/-- Claim C8: extraction of `"visit https://example-green.dev/page?x=1 today"`
yields exactly one match, domain `example-green.dev`, spanning from
`https://` through `x=1` (offsets 6 to 40, before the trailing space). -/
theorem full_url_example_single_match :
    extractUrlsWithRanges "visit https://example-green.dev/page?x=1 today" =
      [⟨"https://example-green.dev/page?x=1", "example-green.dev", 6, 40⟩] := by
  decide

/-- Claim C5 (amended): extraction of `"see api.foo.io for details"` yields no
match: the bare-domain pass rejects `api.foo.io` because its first label
`api` is in the `CODE_KEYWORDS` denylist. -/
theorem bare_domain_api_example_rejected :
    extractUrlsWithRanges "see api.foo.io for details" = [] ∧ "api" ∈ CODE_KEYWORDS := by
  constructor
  · decide
  · decide

/-- Counterexample for C5: the extraction comes back empty, so no single match
with domain `api.foo.io` is produced. -/
theorem bare_domain_api_example_counterexample :
    (extractUrlsWithRanges "see api.foo.io for details").length = 0 ∧
    ¬ ∃ m : UrlMatch, extractUrlsWithRanges "see api.foo.io for details" = [m] ∧
      m.domain = "api.foo.io" := by
  refine ⟨by decide, fun hex => ?_⟩
  obtain ⟨m, hm, -⟩ := hex
  have h0 : extractUrlsWithRanges "see api.foo.io for details" = [] := by decide
  rw [h0] at hm
  exact List.noConfusion hm

/-- Counterexample for C1: on `"x.com/https://y.com"` the returned match list
is neither sorted by start offset nor free of overlapping spans (the pass-2
match `x.com` starts at 0 before the pass-1 match at 6, and its span
`[0, 19)` contains the pass-1 span `[6, 19)`). -/
theorem extract_overlap_counterexample :
    startsSortedB (extractUrlsWithRanges "x.com/https://y.com") = false ∧
    noOverlapB (extractUrlsWithRanges "x.com/https://y.com") = false := by
  constructor
  · decide
  · decide


/-! ## Lemmas about the regex matchers: every sub-match moves forward -/

theorem mem_clsM {p : Char → Bool} {t : List Char} {i j : Nat}
    (h : j ∈ clsM p t i) : j = i + 1 := by
  unfold clsM at h
  cases hg : t.get? i with
  | none => rw [hg] at h; simp at h
  | some c =>
    rw [hg] at h
    simp at h
    exact h.2

theorem mem_litM {t : List Char} : ∀ {lit : List Char} {i j : Nat},
    j ∈ litM lit t i → j = i + lit.length := by
  intro lit
  induction lit with
  | nil => intro i j h; simpa [litM] using h
  | cons c cs ih =>
    intro i j h
    unfold litM at h
    cases hg : t.get? i with
    | none => rw [hg] at h; simp at h
    | some c' =>
      rw [hg] at h
      simp at h
      have := ih h.2
      simp only [List.length_cons]
      omega

theorem mem_optM {f : Nat → List Nat} {i j : Nat} (h : j ∈ optM f i) : j ∈ f i ∨ j = i := by
  unfold optM at h
  rcases List.mem_append.mp h with h' | h'
  · exact Or.inl h'
  · simp at h'
    exact Or.inr h'

theorem mem_repM {p : Char → Bool} {lo hi : Nat} {t : List Char} {i j : Nat}
    (h : j ∈ repM p lo hi t i) : i + lo ≤ j := by
  simp only [repM] at h
  split at h
  · simp at h
  · obtain ⟨k, hk, hkj⟩ := List.mem_map.mp h
    have hk' := List.mem_range.mp hk
    omega

theorem mem_repUnbM {p : Char → Bool} {lo : Nat} {t : List Char} {i j : Nat}
    (h : j ∈ repUnbM p lo t i) : i + lo ≤ j := by
  simp only [repUnbM] at h
  split at h
  · simp at h
  · obtain ⟨k, hk, hkj⟩ := List.mem_map.mp h
    have hk' := List.mem_range.mp hk
    omega

theorem mem_labelM {t : List Char} {i j : Nat} (h : j ∈ labelM t i) : i < j := by
  unfold labelM at h
  obtain ⟨a, ha, hb⟩ := List.mem_flatMap.mp h
  have ha1 := mem_clsM ha
  rcases mem_optM hb with hb' | rfl
  · obtain ⟨l, hl, hcls⟩ := List.mem_flatMap.mp hb'
    have h1 := mem_clsM hcls
    have h2 := mem_repM hl
    omega
  · omega

theorem mem_starGrpM {f : Nat → List Nat} (hf : ∀ k j, j ∈ f k → k ≤ j) :
    ∀ {fuel i j : Nat}, j ∈ starGrpM f fuel i → i ≤ j := by
  intro fuel
  induction fuel with
  | zero =>
    intro i j h
    simp only [starGrpM, List.mem_singleton] at h
    omega
  | succ n ih =>
    intro i j h
    unfold starGrpM at h
    rcases List.mem_append.mp h with h' | h'
    · obtain ⟨k, hk, hrec⟩ := List.mem_flatMap.mp h'
      exact le_trans (hf i k hk) (ih hrec)
    · simp at h'
      omega

theorem mem_hostM {t : List Char} {i l e : Nat} (h : (l, e) ∈ hostM t i) :
    i < e ∧ l + 2 ≤ e := by
  unfold hostM at h
  obtain ⟨j, hj, h1⟩ := List.mem_flatMap.mp h
  obtain ⟨k, hk, h2⟩ := List.mem_flatMap.mp h1
  obtain ⟨l', hl', h3⟩ := List.mem_flatMap.mp h2
  obtain ⟨e', he', heq⟩ := List.mem_map.mp h3
  have hj' := mem_labelM hj
  have hdot : ∀ a b : Nat, b ∈ (clsM (fun c => c == '.') t a).flatMap (labelM t) → a ≤ b := by
    intro a b hb
    obtain ⟨x, hx, hlab⟩ := List.mem_flatMap.mp hb
    have := mem_clsM hx
    have := mem_labelM hlab
    omega
  have hk' := mem_starGrpM hdot hk
  have hl'' := mem_clsM hl'
  have he'' := mem_repUnbM he'
  obtain ⟨rfl, rfl⟩ := Prod.mk.injEq .. |>.mp heq
  omega

theorem mem_pathOptM {t : List Char} {e m : Nat} (h : m ∈ pathOptM t e) : e ≤ m := by
  unfold pathOptM at h
  rcases mem_optM h with h' | rfl
  · obtain ⟨a, ha, hb⟩ := List.mem_flatMap.mp h'
    have := mem_clsM ha
    have := mem_repUnbM hb
    omega
  · omega

theorem fullUrlMatchAt_lt {t : List Char} {i : Nat} {r : Nat × Nat × Nat}
    (h : fullUrlMatchAt t i = some r) : i < r.2.2 := by
  unfold fullUrlMatchAt at h
  have hm := List.mem_of_mem_head? (l := _) (show r ∈ _ from h)
  obtain ⟨a, ha, h1⟩ := List.mem_flatMap.mp hm
  obtain ⟨b, hb, h2⟩ := List.mem_flatMap.mp h1
  obtain ⟨c0, hc0, h3⟩ := List.mem_flatMap.mp h2
  obtain ⟨hh, hhh, h4⟩ := List.mem_flatMap.mp h3
  obtain ⟨le, hle, h5⟩ := List.mem_flatMap.mp h4
  obtain ⟨m, hmm, heq⟩ := List.mem_map.mp h5
  have ha' := mem_litM ha
  have hb' : a ≤ b := by
    rcases mem_optM hb with h' | rfl
    · have := mem_litM h'; omega
    · omega
  have hc0' := mem_litM hc0
  have hhh' : c0 ≤ hh := by
    rcases mem_optM hhh with h' | rfl
    · have := mem_litM h'; omega
    · omega
  obtain ⟨l0, e0⟩ := le
  have hle' := mem_hostM hle
  have hm' := mem_pathOptM hmm
  subst heq
  simp only []
  omega

theorem domainMatchAt_lt {t : List Char} {i : Nat} {r : Nat × Nat × Nat × Nat}
    (h : domainMatchAt t i = some r) : i < r.2.2.2 := by
  simp only [domainMatchAt] at h
  split at h
  case isFalse => simp at h
  case isTrue =>
    have hm := List.mem_of_find?_eq_some h
    obtain ⟨hh, hhh, h1⟩ := List.mem_flatMap.mp hm
    obtain ⟨le, hle, h2⟩ := List.mem_flatMap.mp h1
    obtain ⟨m, hmm, heq⟩ := List.mem_map.mp h2
    have hhh' : i ≤ hh := by
      rcases mem_optM hhh with h' | rfl
      · have := mem_litM h'; omega
      · omega
    obtain ⟨l0, e0⟩ := le
    have hle' := mem_hostM hle
    have hm' := mem_pathOptM hmm
    subst heq
    simp only []
    omega


/-! ## Lemmas about the exec scan: matches come in increasing, disjoint order -/

theorem findFromAux_spec {α : Type} {matchAt : Nat → Option α} :
    ∀ {fuel i j : Nat} {a : α}, findFromAux matchAt fuel i = some (j, a) →
      i ≤ j ∧ matchAt j = some a := by
  intro fuel
  induction fuel with
  | zero => intro i j a h; simp [findFromAux] at h
  | succ n ih =>
    intro i j a h
    unfold findFromAux at h
    cases hm : matchAt i with
    | some a' =>
      rw [hm] at h
      obtain ⟨rfl, rfl⟩ := Prod.mk.injEq .. |>.mp (Option.some.injEq .. |>.mp h)
      exact ⟨le_refl i, hm⟩
    | none =>
      rw [hm] at h
      have := ih h
      exact ⟨le_trans (Nat.le_succ i) this.1, this.2⟩

theorem execAllAux_start_ge {α : Type} {matchAt : Nat → Option α} {stopOf : α → Nat}
    (hM : ∀ j a, matchAt j = some a → j < stopOf a) {len : Nat} :
    ∀ {fuel i : Nat}, ∀ x ∈ execAllAux matchAt stopOf len fuel i,
      i ≤ x.1 ∧ x.1 < stopOf x.2 := by
  intro fuel
  induction fuel with
  | zero => intro i x hx; simp [execAllAux] at hx
  | succ n ih =>
    intro i x hx
    unfold execAllAux at hx
    cases hf : findFromAux matchAt (len + 1 - i) i with
    | none => rw [hf] at hx; simp at hx
    | some ja =>
      rw [hf] at hx
      obtain ⟨j, a⟩ := ja
      have hspec := findFromAux_spec hf
      rcases List.mem_cons.mp hx with rfl | hx'
      · exact ⟨hspec.1, hM _ _ hspec.2⟩
      · have hrec := ih x hx'
        have hlt := hM _ _ hspec.2
        exact ⟨le_trans (le_trans hspec.1 (le_of_lt hlt)) hrec.1, hrec.2⟩

theorem execAllAux_pairwise {α : Type} {matchAt : Nat → Option α} {stopOf : α → Nat}
    (hM : ∀ j a, matchAt j = some a → j < stopOf a) {len : Nat} :
    ∀ {fuel i : Nat},
      List.Pairwise (fun x y => stopOf x.2 ≤ y.1) (execAllAux matchAt stopOf len fuel i) := by
  intro fuel
  induction fuel with
  | zero => intro i; simp [execAllAux]
  | succ n ih =>
    intro i
    unfold execAllAux
    cases hf : findFromAux matchAt (len + 1 - i) i with
    | none => simp
    | some ja =>
      obtain ⟨j, a⟩ := ja
      refine List.Pairwise.cons ?_ ih
      intro y hy
      exact (execAllAux_start_ge hM y hy).1

theorem rawF_sorted (t : List Char) :
    List.Pairwise (fun a b : RawF => a.mStop ≤ b.idx) (fullUrlRawAll t) ∧
    ∀ r ∈ fullUrlRawAll t, r.idx < r.mStop := by
  have hM : ∀ j (a : Nat × Nat × Nat), fullUrlMatchAt t j = some a → j < a.2.2 :=
    fun j a h => fullUrlMatchAt_lt h
  unfold fullUrlRawAll
  constructor
  · rw [List.pairwise_map]
    exact execAllAux_pairwise hM
  · intro r hr
    obtain ⟨x, hx, rfl⟩ := List.mem_map.mp hr
    exact (execAllAux_start_ge hM x hx).2

theorem rawD_sorted (t : List Char) :
    List.Pairwise (fun a b : RawD => a.mStop ≤ b.idx) (domainRawAll t) ∧
    ∀ r ∈ domainRawAll t, r.idx < r.mStop := by
  have hM : ∀ j (a : Nat × Nat × Nat × Nat), domainMatchAt t j = some a → j < a.2.2.2 :=
    fun j a h => domainMatchAt_lt h
  unfold domainRawAll
  constructor
  · rw [List.pairwise_map]
    exact execAllAux_pairwise hM
  · intro r hr
    obtain ⟨x, hx, rfl⟩ := List.mem_map.mp hr
    exact (execAllAux_start_ge hM x hx).2


/-! ## Lemmas about the extraction passes -/

theorem acceptBare_eq_acceptBareD (t : List Char) (r : RawD) (ms : List UrlMatch)
    (ranges : List (Nat × Nat))
    (h : (ms.any fun m => r.idx ≥ m.startOffset && r.idx < m.endOffset) =
      (ranges.any fun se => r.idx ≥ se.1 && r.idx < se.2)) :
    acceptBare t r ms = acceptBareD t r ranges := by
  unfold acceptBare acceptBareD
  rw [h]
  cases (CODE_KEYWORDS.contains ⟨(splitDot (sliceLower t r.hStart r.hStop).data).headD []⟩) <;>
  cases ((if r.idx > 0 then t.get? (r.idx - 1) else none) == some '.' &&
    testIdDollar (if r.idx > 1 then t.get? (r.idx - 2) else none)) <;>
  cases (t.get? r.mStop == some '(') <;>
  cases (ranges.any fun se => r.idx ≥ se.1 && r.idx < se.2) <;>
  cases (isValidDomain (sliceLower t r.hStart r.hStop)) <;>
  cases (VALID_TLDS.contains (sliceLower t r.tStart r.hStop)) <;>
  rfl

theorem any_covers_map_span (ms : List UrlMatch) (i : Nat) :
    (ms.any fun m => i ≥ m.startOffset && i < m.endOffset) =
      ((ms.map fun m => (m.startOffset, m.endOffset)).any fun se => i ≥ se.1 && i < se.2) := by
  induction ms with
  | nil => rfl
  | cons m rest ih => simp only [List.map_cons, List.any_cons, ih]


theorem urlPass1_sortedAux (t : List Char) :
    ∀ (raws : List RawF) (ms : List UrlMatch),
      List.Pairwise (fun a b : RawF => a.mStop ≤ b.idx) raws →
      (∀ r ∈ raws, r.idx < r.mStop) →
      List.Pairwise (fun a b : UrlMatch => a.endOffset ≤ b.startOffset) ms →
      (∀ m ∈ ms, m.startOffset < m.endOffset) →
      (∀ m ∈ ms, ∀ r ∈ raws, m.endOffset ≤ r.idx) →
      sortedDisjoint (urlPass1 t raws ms) := by
  intro raws
  induction raws with
  | nil =>
    intro ms _ _ h3 h4 _
    exact ⟨by simpa [urlPass1] using h3, by simpa [urlPass1] using h4⟩
  | cons r rs ih =>
    intro ms h1 h2 h3 h4 h5
    obtain ⟨hr_all, h1'⟩ := List.pairwise_cons.mp h1
    simp only [urlPass1]
    split
    · apply ih _ h1' (fun r' hr' => h2 r' (List.mem_cons_of_mem r hr'))
      · rw [List.pairwise_append]
        refine ⟨h3, List.pairwise_singleton _ _, ?_⟩
        intro m hm m' hm'
        rw [List.mem_singleton] at hm'
        subst hm'
        exact h5 m hm r (List.mem_cons_self r rs)
      · intro m hm
        rcases List.mem_append.mp hm with hm' | hm'
        · exact h4 m hm'
        · rw [List.mem_singleton] at hm'
          subst hm'
          exact h2 r (List.mem_cons_self r rs)
      · intro m hm r' hr'
        rcases List.mem_append.mp hm with hm' | hm'
        · exact h5 m hm' r' (List.mem_cons_of_mem r hr')
        · rw [List.mem_singleton] at hm'
          subst hm'
          exact hr_all r' hr'
    · exact ih ms h1' (fun r' hr' => h2 r' (List.mem_cons_of_mem r hr')) h3 h4
        (fun m hm r' hr' => h5 m hm r' (List.mem_cons_of_mem r hr'))

theorem pass1_agree (t : List Char) :
    ∀ (raws : List RawF) (ms : List UrlMatch) (ds : List String) (ranges : List (Nat × Nat)),
      ds = ms.map (fun m => m.domain) →
      ranges = ms.map (fun m => (m.startOffset, m.endOffset)) →
      (urlPass1 t raws ms).map (fun m => m.domain) = (domPass1 t raws (ds, ranges)).1 ∧
      (urlPass1 t raws ms).map (fun m => (m.startOffset, m.endOffset)) =
        (domPass1 t raws (ds, ranges)).2 := by
  intro raws
  induction raws with
  | nil =>
    intro ms ds ranges h1 h2
    constructor
    · simp [urlPass1, domPass1, h1]
    · simp [urlPass1, domPass1, h2]
  | cons r rs ih =>
    intro ms ds ranges h1 h2
    simp only [urlPass1, domPass1]
    by_cases hv : isValidDomain (sliceLower t r.hStart r.hStop) = true
    · rw [if_pos hv, if_pos hv]
      exact ih (ms ++ [⟨slice t r.idx r.mStop, sliceLower t r.hStart r.hStop, r.idx, r.mStop⟩])
        (ds ++ [sliceLower t r.hStart r.hStop]) (ranges ++ [(r.idx, r.mStop)])
        (by simp [h1]) (by simp [h2])
    · rw [if_neg hv, if_neg hv]
      exact ih ms ds ranges h1 h2

theorem pass2_agree (t : List Char) :
    ∀ (raws : List RawD) (ms : List UrlMatch) (ranges : List (Nat × Nat)) (ds : List String),
      ds = ms.map (fun m => m.domain) →
      (∀ r ∈ raws, (ms.any fun m => r.idx ≥ m.startOffset && r.idx < m.endOffset) =
        (ranges.any fun se => r.idx ≥ se.1 && r.idx < se.2)) →
      List.Pairwise (fun a b : RawD => a.mStop ≤ b.idx) raws →
      (urlPass2 t raws ms).map (fun m => m.domain) = domPass2 t ranges raws ds := by
  intro raws
  induction raws with
  | nil =>
    intro ms ranges ds h1 _ _
    simp [urlPass2, domPass2, h1]
  | cons r rs ih =>
    intro ms ranges ds h1 h2 h3
    obtain ⟨hr_all, h3'⟩ := List.pairwise_cons.mp h3
    simp only [urlPass2, domPass2]
    rw [acceptBare_eq_acceptBareD t r ms ranges (h2 r (List.mem_cons_self r rs))]
    by_cases ha : acceptBareD t r ranges = true
    · rw [if_pos ha, if_pos ha]
      have hcov : ∀ r2 ∈ rs,
          ((ms ++ [(⟨slice t r.idx r.mStop, sliceLower t r.hStart r.hStop, r.idx, r.mStop⟩ :
              UrlMatch)]).any
            fun m => r2.idx ≥ m.startOffset && r2.idx < m.endOffset) =
          (ranges.any fun se => r2.idx ≥ se.1 && r2.idx < se.2) := by
        intro r2 hr2
        have hstop := hr_all r2 hr2
        rw [List.any_append]
        have hz : (([⟨slice t r.idx r.mStop, sliceLower t r.hStart r.hStop, r.idx, r.mStop⟩] :
            List UrlMatch).any fun m => r2.idx ≥ m.startOffset && r2.idx < m.endOffset) = false := by
          simp only [List.any_cons, List.any_nil, Bool.or_false]
          simp only [Bool.and_eq_false_iff, decide_eq_false_iff_not, not_lt]
          right
          exact hstop
        rw [hz, Bool.or_false]
        exact h2 r2 (List.mem_cons_of_mem r hr2)
      exact ih _ ranges _ (by simp [h1]) hcov h3'
    · rw [if_neg ha, if_neg ha]
      exact ih ms ranges ds h1 (fun r2 hr2 => h2 r2 (List.mem_cons_of_mem r hr2)) h3'


theorem urlPass2_decomp (t : List Char) :
    ∀ (raws : List RawD) (ms : List UrlMatch),
      List.Pairwise (fun a b : RawD => a.mStop ≤ b.idx) raws →
      ∃ p2, urlPass2 t raws ms = ms ++ p2 ∧
        (∀ m ∈ p2, ∃ r, r ∈ raws ∧ m.startOffset = r.idx ∧ m.endOffset = r.mStop) ∧
        List.Pairwise (fun a b : UrlMatch => a.endOffset ≤ b.startOffset) p2 ∧
        (∀ m ∈ p2, ∀ m' ∈ ms,
          ¬(m'.startOffset ≤ m.startOffset ∧ m.startOffset < m'.endOffset)) := by
  intro raws
  induction raws with
  | nil =>
    intro ms _
    exact ⟨[], by simp [urlPass2], by simp, by simp, by simp⟩
  | cons r rs ih =>
    intro ms h3
    obtain ⟨hr_all, h3'⟩ := List.pairwise_cons.mp h3
    simp only [urlPass2]
    by_cases ha : acceptBare t r ms = true
    · rw [if_pos ha]
      obtain ⟨p2, hp2, hspan, hpw, hncov⟩ :=
        ih (ms ++ [(⟨slice t r.idx r.mStop, sliceLower t r.hStart r.hStop, r.idx,
          r.mStop⟩ : UrlMatch)]) h3'
      refine ⟨(⟨slice t r.idx r.mStop, sliceLower t r.hStart r.hStop, r.idx,
        r.mStop⟩ : UrlMatch) :: p2, ?_, ?_, ?_, ?_⟩
      · rw [hp2]
        simp
      · intro m hm
        rcases List.mem_cons.mp hm with rfl | hm'
        · exact ⟨r, List.mem_cons_self r rs, rfl, rfl⟩
        · obtain ⟨r2, hr2, e1, e2⟩ := hspan m hm'
          exact ⟨r2, List.mem_cons_of_mem r hr2, e1, e2⟩
      · refine List.Pairwise.cons ?_ hpw
        intro m hm
        obtain ⟨r2, hr2, e1, e2⟩ := hspan m hm
        rw [e1]
        exact hr_all r2 hr2
      · intro m hm m' hm'
        rcases List.mem_cons.mp hm with rfl | hmp
        · have hD : (!(ms.any fun mm => r.idx ≥ mm.startOffset && r.idx < mm.endOffset) &&
              isValidDomain (sliceLower t r.hStart r.hStop) &&
              VALID_TLDS.contains (sliceLower t r.tStart r.hStop)) = true := by
            unfold acceptBare at ha
            exact ((Bool.and_eq_true _ _).mp ha).2
          have hnot := ((Bool.and_eq_true _ _).mp ((Bool.and_eq_true _ _).mp hD).1).1
          have hany : (ms.any fun mm => r.idx ≥ mm.startOffset && r.idx < mm.endOffset) = false := by
            rw [Bool.not_eq_true'] at hnot
            exact hnot
          rw [List.any_eq_false] at hany
          rintro ⟨hle, hlt⟩
          have hle' : r.idx ≥ m'.startOffset := hle
          have hlt' : r.idx < m'.endOffset := hlt
          refine hany m' hm' ?_
          show (decide (r.idx ≥ m'.startOffset) && decide (r.idx < m'.endOffset)) = true
          rw [decide_eq_true hle', decide_eq_true hlt']
          rfl
        · exact hncov m hmp m' (List.mem_append_left _ hm')
    · rw [if_neg ha]
      obtain ⟨p2, hp2, hspan, hpw, hncov⟩ := ih ms h3'
      refine ⟨p2, hp2, ?_, hpw, hncov⟩
      intro m hm
      obtain ⟨r2, hr2, e1, e2⟩ := hspan m hm
      exact ⟨r2, List.mem_cons_of_mem r hr2, e1, e2⟩

/-- Claim C9: `extractDomainsFromText` returns exactly the `domain` fields of
the matches `extractUrlsWithRanges` returns for the same text, in the same
order — the metrics-panel extractor and the decoration extractor accept the
same domains. -/
theorem extractDomains_eq_extractUrls_domains (s : String) :
    extractDomainsFromText s = (extractUrlsWithRanges s).map (fun m => m.domain) := by
  have hp := pass1_agree s.data (fullUrlRawAll s.data)
    [] [] [] (by simp) (by simp)
  have hcov : ∀ r ∈ domainRawAll s.data,
      ((urlPass1 s.data (fullUrlRawAll s.data) []).any
        fun m => r.idx ≥ m.startOffset && r.idx < m.endOffset) =
      ((domPass1 s.data (fullUrlRawAll s.data) ([], [])).2.any
        fun se => r.idx ≥ se.1 && r.idx < se.2) := by
    intro r _
    rw [← hp.2]
    exact any_covers_map_span (urlPass1 s.data (fullUrlRawAll s.data) []) r.idx
  have h2 := pass2_agree s.data (domainRawAll s.data)
    (urlPass1 s.data (fullUrlRawAll s.data) [])
    (domPass1 s.data (fullUrlRawAll s.data) ([], [])).2
    (domPass1 s.data (fullUrlRawAll s.data) ([], [])).1
    hp.1.symm hcov (rawD_sorted s.data).1
  exact h2.symm

/-- Claim C1 (amended): the match list of `extractUrlsWithRanges` is the
pass-1 (full-URL) matches, strictly increasing and pairwise disjoint among
themselves, followed by the pass-2 (bare-domain) matches, strictly increasing
and pairwise disjoint among themselves, and no pass-2 match starts inside a
pass-1 span; across the two passes, however, start offsets are not globally
non-decreasing and a pass-2 span may overlap a pass-1 span. -/
theorem extract_matches_two_sorted_passes (s : String) :
    ∃ p2, extractUrlsWithRanges s = fullUrlPassMatches s ++ p2 ∧
      sortedDisjoint (fullUrlPassMatches s) ∧ sortedDisjoint p2 ∧
      ∀ m ∈ p2, ∀ m' ∈ fullUrlPassMatches s,
        ¬(m'.startOffset ≤ m.startOffset ∧ m.startOffset < m'.endOffset) := by
  obtain ⟨p2, hp2, hspan, hpw, hncov⟩ :=
    urlPass2_decomp s.data (domainRawAll s.data) (fullUrlPassMatches s) (rawD_sorted s.data).1
  refine ⟨p2, hp2, ?_, ⟨hpw, ?_⟩, hncov⟩
  · exact urlPass1_sortedAux s.data (fullUrlRawAll s.data) []
      (rawF_sorted s.data).1 (rawF_sorted s.data).2
      List.Pairwise.nil (by simp) (by simp)
  · intro m hm
    obtain ⟨r, hr, e1, e2⟩ := hspan m hm
    have hpos := (rawD_sorted s.data).2 r hr
    omega

end GreenHosting
